import Mathlib

/-!
# facedetect: region selection, face filter and result assembly

A shallow embedding of `main.go` of deltadecay/facedetect.

Modelling conventions.

* Go `int` values are image coordinates and sizes; they are modelled by `ℤ`.
* Finite `float32` / `float64` values are modelled by the rationals they denote.
  Every arithmetic operation is the exact operation followed by IEEE-754
  round-to-nearest, ties-to-even (`roundF32`, `roundF64`), with gradual underflow.
  NaN, infinities and results of magnitude `2^128` (resp. `2^1024`) or more are
  outside the model.
* The conversion `int(f)` of a float (`goInt`) truncates toward zero when the
  result fits a 64-bit `int`.  When it does not fit, Go leaves the result
  implementation-dependent; the model takes the amd64 result, the least `int`
  `-2^63`.
* The pigo cascade classifier, the clusterer and the pupil locator are external
  capabilities.  The clusterer output is an input list; the pupil locator is a
  state-passing function (it draws random perturbations).
* Debug drawing only touches the debug canvas, never the sample buffer handed to
  the detectors nor the results, and is left out.
-/

namespace FaceDetect

/-! ## Floating point -/

/-- The rational `2 ^ e` for an integer exponent. -/
def pow2 (e : ℤ) : ℚ :=
  if 0 ≤ e then (2 : ℚ) ^ e.toNat else ((2 : ℚ) ^ (-e).toNat)⁻¹

/-- Round a rational to the nearest integer, ties to the even one. -/
def roundHalfEven (q : ℚ) : ℤ :=
  let f := ⌊q⌋
  let r := q - f
  if r < 1 / 2 then f
  else if 1 / 2 < r then f + 1
  else if f % 2 = 0 then f else f + 1

/-- Number of binary digits of `n`, by halving (`fuel` bounds the recursion). -/
def bitLenAux : ℕ → ℕ → ℕ
  | 0, _ => 0
  | fuel + 1, n => if n = 0 then 0 else bitLenAux fuel (n / 2) + 1

/-- Number of binary digits of `n` (`0` for `n = 0`). -/
def bitLen (n : ℕ) : ℕ := bitLenAux n n

/-- Binary exponent of a positive rational: the `e` with `2^e ≤ q < 2^(e+1)`. -/
def binade (q : ℚ) : ℤ :=
  let e0 : ℤ := (bitLen q.num.natAbs : ℤ) - (bitLen q.den : ℤ)
  if pow2 e0 ≤ q then e0 else e0 - 1

/-- Round `q` to the nearest multiple of `2 ^ k`, ties to even. -/
def roundToGrid (k : ℤ) (q : ℚ) : ℚ :=
  (roundHalfEven (q / pow2 k) : ℚ) * pow2 k

/-- Round a positive rational to `p` significant bits, the unit in the last place
never below `2 ^ emin` (gradual underflow). -/
def roundPos (p : ℕ) (emin : ℤ) (q : ℚ) : ℚ :=
  roundToGrid (max (binade q - ((p : ℤ) - 1)) emin) q

/-- IEEE-754 round-to-nearest-even to a binary format with `p` significant bits and
least subnormal `2 ^ emin`. -/
def roundFloat (p : ℕ) (emin : ℤ) (q : ℚ) : ℚ :=
  if q = 0 then 0 else if 0 < q then roundPos p emin q else -roundPos p emin (-q)

/-- Rounding to `float32` (24 significant bits, least subnormal `2^-149`). -/
def roundF32 (q : ℚ) : ℚ := roundFloat 24 (-149) q

/-- Rounding to `float64` (53 significant bits, least subnormal `2^-1074`). -/
def roundF64 (q : ℚ) : ℚ := roundFloat 53 (-1074) q

/-- The rational is a `float64` value. -/
def IsFloat64 (q : ℚ) : Prop := roundF64 q = q

/-- The rational is a `float32` value. -/
def IsFloat32 (q : ℚ) : Prop := roundF32 q = q

instance (q : ℚ) : Decidable (IsFloat64 q) := by unfold IsFloat64; infer_instance

instance (q : ℚ) : Decidable (IsFloat32 q) := by unfold IsFloat32; infer_instance

/-- Go conversion `int(f)` of a float to the 64-bit `int`: truncation toward zero
when the truncated value fits; otherwise the result is implementation-dependent
and is taken as on amd64, the least `int` `-2^63`. -/
def goInt (q : ℚ) : ℤ :=
  let t : ℤ := if 0 ≤ q then ⌊q⌋ else ⌈q⌉
  if -9223372036854775808 ≤ t ∧ t ≤ 9223372036854775807 then t else -9223372036854775808

/-! ## Data model (`main.go` lines 32-57, and the `image` and pigo types used) -/

/-- `Location`: center point and size. -/
structure Location where
  CX : ℤ
  CY : ℤ
  Size : ℤ
  deriving DecidableEq, Repr

/-- `NewLocationFromOffsetCenterSize` (lines 39-46). -/
def NewLocationFromOffsetCenterSize (offsetX offsetY centerX centerY size : ℤ) : Location :=
  { CX := offsetX + centerX, CY := offsetY + centerY, Size := size }

/-- `FaceResult`: the pointer fields are optional values, `Quality` is a `float32`. -/
structure FaceResult where
  Face : Option Location
  LeftEye : Option Location
  RightEye : Option Location
  Quality : ℚ
  deriving DecidableEq, Repr

/-- `image.Point`. -/
structure Point where
  X : ℤ
  Y : ℤ
  deriving DecidableEq, Repr

/-- `image.Rectangle`. -/
structure Rectangle where
  Min : Point
  Max : Point
  deriving DecidableEq, Repr

/-- `image.Rect`: the corners are swapped where needed so that the result is
well formed. -/
def Rect (x0 y0 x1 y1 : ℤ) : Rectangle :=
  let (x0, x1) := if x0 > x1 then (x1, x0) else (x0, x1)
  let (y0, y1) := if y0 > y1 then (y1, y0) else (y0, y1)
  { Min := { X := x0, Y := y0 }, Max := { X := x1, Y := y1 } }

/-- `Rectangle.Dx`. -/
def Rectangle.Dx (r : Rectangle) : ℤ := r.Max.X - r.Min.X

/-- `Rectangle.Dy`. -/
def Rectangle.Dy (r : Rectangle) : ℤ := r.Max.Y - r.Min.Y

/-- `pigo.Detection`: row, column, scale and detection score (`float32`). -/
structure Detection where
  Row : ℤ
  Col : ℤ
  Scale : ℤ
  Q : ℚ
  deriving DecidableEq, Repr

/-- `pigo.Puploc`: row, column, scale (`float32`) and perturbation count. -/
structure Puploc where
  Row : ℤ
  Col : ℤ
  Scale : ℚ
  Perturbs : ℤ
  deriving DecidableEq, Repr

/-! ## Box parsing (`main.go` lines 59-75)

Go strings are modelled by their sequence of Unicode code points. -/

/-- `strings.Trim s cutset`: drop the leading and trailing characters that belong
to the cutset. -/
def Trim (s : List Char) (cutset : List Char) : List Char :=
  ((s.dropWhile (fun c => decide (c ∈ cutset))).reverse.dropWhile
    (fun c => decide (c ∈ cutset))).reverse

/-- `strings.Split s ","`: the fields between commas; never empty. -/
def SplitComma : List Char → List (List Char)
  | [] => [[]]
  | c :: cs =>
    if c = Char.ofNat 44 then [] :: SplitComma cs
    else
      match SplitComma cs with
      | [] => [[c]]
      | f :: fs => (c :: f) :: fs

/-- `unicode.IsSpace`. -/
def isSpace (c : Char) : Bool :=
  let n := c.toNat
  (9 ≤ n && n ≤ 13) || n = 32 || n = 133 || n = 160 || n = 5760 ||
    (8192 ≤ n && n ≤ 8202) || n = 8232 || n = 8233 || n = 8239 || n = 8287 || n = 12288

/-- `strings.TrimSpace`. -/
def TrimSpace (s : List Char) : List Char :=
  ((s.dropWhile isSpace).reverse.dropWhile isSpace).reverse

/-- The `for index, param := range bboxParams` loop of `parseBoundingBox`: a field
that parses overwrites `bounds[index]`, any other field leaves it alone.
`ParseFloat` is the library parser; `none` stands for a non-nil error. -/
def parseLoop {F : Type} (ParseFloat : List Char → Option F) :
    ℕ → List (List Char) → List F → List F
  | _, [], bounds => bounds
  | index, param :: rest, bounds =>
    match ParseFloat (TrimSpace param) with
    | some val => parseLoop ParseFloat (index + 1) rest (bounds.set index val)
    | none => parseLoop ParseFloat (index + 1) rest bounds

/-- `parseBoundingBox`, over any carrier `F` of `float64` values. -/
def parseBoundingBox {F : Type} [OfNat F 0] [OfNat F 1]
    (ParseFloat : List Char → Option F) (bboxStr : List Char) : List F :=
  let bboxStr := Trim bboxStr [Char.ofNat 39, Char.ofNat 34]
  let bboxParams := SplitComma bboxStr
  let bounds : List F := [0, 0, 1, 1]
  let bboxParams := if bboxParams.length > 4 then bboxParams.take 4 else bboxParams
  parseLoop ParseFloat 0 bboxParams bounds

/-! ## Region selection (`main.go` lines 77-107) -/

/-- `getSubRectangleForImage` for an image of the given width and height; `none`
is the panic on fewer than four box values. -/
def getSubRectangleForImage (width height : ℤ) (bboxParams : List ℚ) : Option Rectangle :=
  match bboxParams with
  | b0 :: b1 :: b2 :: b3 :: _ =>
    let x1 := goInt (roundF64 (roundF64 width * b0))
    let y1 := goInt (roundF64 (roundF64 height * b1))
    let x2 := goInt (roundF64 (roundF64 width * roundF64 (b0 + b2)))
    let y2 := goInt (roundF64 (roundF64 height * roundF64 (b1 + b3)))
    let x1 := if x1 < 0 then 0 else x1
    let y1 := if y1 < 0 then 0 else y1
    let x2 := if x2 > width then width else x2
    let y2 := if y2 > height then height else y2
    some (Rect x1 y1 x2 y2)
  | _ => none

/-! ## The working image (`main.go` lines 206-220) -/

/-- `newRect`: the bounds of the working image cut out of the region. -/
def newRect (subRect : Rectangle) : Rectangle := Rect 0 0 subRect.Dx subRect.Dy

/-- Modelled from the spec: `pigo.RgbToGrayscale` is a library function outside
this repository; the spec (SampleBuffer) gives its result as an array of length
rows × cols of the image it is given. -/
def grayBufferLen (img : Rectangle) : ℕ := (img.Dy * img.Dx).toNat

/-! ## Face filter, eye seeds and result assembly (`main.go` lines 261-323) -/

/-- The left-eye `pigo.Puploc` built at lines 285-290. -/
def leftEyeSeed (face : Detection) (perturb : ℤ) : Puploc :=
  { Row := face.Row - goInt (roundF32 (roundF32 (75 / 1000) * roundF32 face.Scale))
    Col := face.Col - goInt (roundF32 (roundF32 (175 / 1000) * roundF32 face.Scale))
    Scale := roundF32 (roundF32 face.Scale * roundF32 (25 / 100))
    Perturbs := perturb }

/-- The right-eye `pigo.Puploc` built at lines 302-307. -/
def rightEyeSeed (face : Detection) (perturb : ℤ) : Puploc :=
  { Row := face.Row - goInt (roundF32 (roundF32 (75 / 1000) * roundF32 face.Scale))
    Col := face.Col + goInt (roundF32 (roundF32 (185 / 1000) * roundF32 face.Scale))
    Scale := roundF32 (roundF32 face.Scale * roundF32 (25 / 100))
    Perturbs := perturb }

/-- One iteration of the `for _, face := range faces` loop.  The state is the
pupil locator state together with `foundFaces`. -/
def faceStep {σ : Type} (offsetX offsetY : ℤ) (qThresh : ℚ) (faceSizeThresh perturb : ℤ)
    (RunDetector : σ → Puploc → Puploc × σ)
    (acc : σ × List FaceResult) (face : Detection) : σ × List FaceResult :=
  if face.Q ≥ qThresh then
    if face.Scale ≥ faceSizeThresh then
      let faceResult : FaceResult :=
        { Face := some (NewLocationFromOffsetCenterSize offsetX offsetY face.Col face.Row
            face.Scale)
          LeftEye := none
          RightEye := none
          Quality := face.Q }
      let (leftEye, st) := RunDetector acc.1 (leftEyeSeed face perturb)
      let faceResult :=
        if leftEye.Row > 0 ∧ leftEye.Col > 0 then
          { faceResult with
            LeftEye := some (NewLocationFromOffsetCenterSize offsetX offsetY leftEye.Col
              leftEye.Row (goInt leftEye.Scale)) }
        else faceResult
      let (rightEye, st) := RunDetector st (rightEyeSeed face perturb)
      let faceResult :=
        if rightEye.Row > 0 ∧ rightEye.Col > 0 then
          { faceResult with
            RightEye := some (NewLocationFromOffsetCenterSize offsetX offsetY rightEye.Col
              rightEye.Row (goInt rightEye.Scale)) }
        else faceResult
      (st, acc.2 ++ [faceResult])
    else acc
  else acc

/-- Lines 261-323 of `main`: the thresholds are converted, then the loop runs over
the clustered detections; the value is the final `foundFaces`. -/
def foundFaces {σ : Type} (offsetX offsetY : ℤ) (qualityThreshold sizeThreshold : ℚ)
    (RunDetector : σ → Puploc → Puploc × σ) (st : σ) (faces : List Detection) :
    List FaceResult :=
  let qThresh := roundF32 qualityThreshold
  let faceSizeThresh := goInt sizeThreshold
  let perturb := 63
  (faces.foldl (faceStep offsetX offsetY qThresh faceSizeThresh perturb RunDetector)
    (st, [])).2

/-- A pupil locator that finds nothing, for concrete evaluations. -/
def noEyes : Unit → Puploc → Puploc × Unit :=
  fun st _ => ({ Row := 0, Col := 0, Scale := 0, Perturbs := 63 }, st)

/-- A pupil locator that reports the seed it was given, for concrete evaluations. -/
def echoEyes : Unit → Puploc → Puploc × Unit :=
  fun st pl => (pl, st)

/-! ## Properties of the floating point model -/

theorem pow2_eq_zpow (e : ℤ) : pow2 e = (2 : ℚ) ^ e := by
  unfold pow2
  split_ifs with h
  · lift e to ℕ using h
    simp
  · have h1 : ((-e).toNat : ℤ) = -e := Int.toNat_of_nonneg (by omega)
    have h2 : (2 : ℚ) ^ (-e).toNat = (2 : ℚ) ^ (-e) := by
      rw [← h1, zpow_natCast, h1]
    rw [h2, zpow_neg, inv_inv]

theorem pow2_pos (e : ℤ) : 0 < pow2 e := by
  rw [pow2_eq_zpow]; positivity

theorem roundHalfEven_mono {a b : ℚ} (h : a ≤ b) : roundHalfEven a ≤ roundHalfEven b := by
  have hf : ⌊a⌋ ≤ ⌊b⌋ := Int.floor_le_floor h
  have ha1 := Int.floor_le a
  have ha2 := Int.lt_floor_add_one a
  have hb1 := Int.floor_le b
  have hb2 := Int.lt_floor_add_one b
  unfold roundHalfEven
  simp only []
  by_cases hlt : ⌊a⌋ < ⌊b⌋
  · split_ifs <;> omega
  · have heq : ⌊a⌋ = ⌊b⌋ := by omega
    have hc : (⌊a⌋ : ℚ) = (⌊b⌋ : ℚ) := by exact_mod_cast heq
    split_ifs <;> first | omega | (exfalso; linarith)

theorem roundHalfEven_intCast (m : ℤ) : roundHalfEven (m : ℚ) = m := by
  unfold roundHalfEven
  simp

theorem roundToGrid_mono (k : ℤ) {a b : ℚ} (h : a ≤ b) : roundToGrid k a ≤ roundToGrid k b := by
  unfold roundToGrid
  have hk := pow2_pos k
  have h1 : a / pow2 k ≤ b / pow2 k := div_le_div_of_nonneg_right h hk.le
  have h2 : ((roundHalfEven (a / pow2 k) : ℤ) : ℚ) ≤ (roundHalfEven (b / pow2 k) : ℤ) := by
    exact_mod_cast roundHalfEven_mono h1
  exact mul_le_mul_of_nonneg_right h2 hk.le

theorem roundToGrid_int_mul (k m : ℤ) : roundToGrid k ((m : ℚ) * pow2 k) = (m : ℚ) * pow2 k := by
  unfold roundToGrid
  have hk := pow2_pos k
  rw [mul_div_assoc, div_self hk.ne.symm, mul_one, roundHalfEven_intCast]

theorem roundToGrid_zpow {k j : ℤ} (h : k ≤ j) : roundToGrid k ((2 : ℚ) ^ j) = (2 : ℚ) ^ j := by
  obtain ⟨n, rfl⟩ : ∃ n : ℕ, j = k + n := ⟨(j - k).toNat, by omega⟩
  have h1 : (2 : ℚ) ^ (k + (n : ℤ)) = (((2 ^ n : ℕ) : ℤ) : ℚ) * pow2 k := by
    rw [pow2_eq_zpow, zpow_add₀ (by norm_num), zpow_natCast]
    push_cast
    ring
  rw [h1, roundToGrid_int_mul]

theorem roundToGrid_zero (k : ℤ) : roundToGrid k 0 = 0 := by
  have := roundToGrid_int_mul k 0
  simpa using this

theorem bitLenAux_zero (fuel : ℕ) : bitLenAux fuel 0 = 0 := by
  cases fuel <;> simp [bitLenAux]

theorem bitLenAux_spec : ∀ fuel n : ℕ, n ≤ fuel →
    n < 2 ^ bitLenAux fuel n ∧ (0 < n → 2 ^ bitLenAux fuel n ≤ 2 * n) := by
  intro fuel
  induction fuel with
  | zero =>
    intro n hn
    have : n = 0 := by omega
    subst this
    simp [bitLenAux]
  | succ f ih =>
    intro n hn
    by_cases h0 : n = 0
    · subst h0
      simp [bitLenAux]
    · have hle : n / 2 ≤ f := by omega
      obtain ⟨h1, h2⟩ := ih (n / 2) hle
      simp only [bitLenAux, h0, if_false, pow_succ]
      constructor
      · omega
      · intro _
        by_cases h3 : n / 2 = 0
        · rw [h3, bitLenAux_zero]
          omega
        · have := h2 (by omega)
          omega

theorem bitLen_spec (n : ℕ) (hn : 0 < n) : n < 2 ^ bitLen n ∧ 2 ^ bitLen n ≤ 2 * n := by
  obtain ⟨h1, h2⟩ := bitLenAux_spec n n le_rfl
  exact ⟨h1, h2 hn⟩

theorem binade_spec {q : ℚ} (hq : 0 < q) :
    (2 : ℚ) ^ binade q ≤ q ∧ q < (2 : ℚ) ^ (binade q + 1) := by
  have hnum : 0 < q.num := Rat.num_pos.mpr hq
  have hden : 0 < q.den := q.den_pos
  have hn0 : 0 < q.num.natAbs := by omega
  obtain ⟨hn1, hn2⟩ := bitLen_spec q.num.natAbs hn0
  obtain ⟨hd1, hd2⟩ := bitLen_spec q.den hden
  have hq' : q = (q.num.natAbs : ℚ) / (q.den : ℚ) := by
    have h2 : (q.num.natAbs : ℚ) = (q.num : ℚ) := by
      rw [Nat.cast_natAbs, abs_of_pos hnum]
    rw [h2]
    exact (Rat.num_div_den q).symm
  set n : ℕ := q.num.natAbs
  set d : ℕ := q.den
  set a : ℕ := bitLen n
  set b : ℕ := bitLen d
  have hnQ : (n : ℚ) < (2 : ℚ) ^ a := by exact_mod_cast hn1
  have hnQ2 : (2 : ℚ) ^ a ≤ 2 * (n : ℚ) := by exact_mod_cast hn2
  have hdQ : (d : ℚ) < (2 : ℚ) ^ b := by exact_mod_cast hd1
  have hdQ2 : (2 : ℚ) ^ b ≤ 2 * (d : ℚ) := by exact_mod_cast hd2
  have hdpos : (0 : ℚ) < d := by exact_mod_cast hden
  have hnpos : (0 : ℚ) < n := by exact_mod_cast hn0
  have hA : (0 : ℚ) < (2 : ℚ) ^ a := by positivity
  have hB : (0 : ℚ) < (2 : ℚ) ^ b := by positivity
  have he0 : (2 : ℚ) ^ ((a : ℤ) - (b : ℤ)) = (2 : ℚ) ^ a / (2 : ℚ) ^ b := by
    rw [zpow_sub₀ (by norm_num), zpow_natCast, zpow_natCast]
  have hup : q < 2 * ((2 : ℚ) ^ a / (2 : ℚ) ^ b) := by
    rw [hq', ← mul_div_assoc, div_lt_div_iff₀ hdpos hB]
    nlinarith
  have hlo : (2 : ℚ) ^ a / (2 : ℚ) ^ b / 2 ≤ q := by
    rw [hq', div_div, div_le_div_iff₀ (by positivity) hdpos]
    nlinarith
  unfold binade
  simp only []
  rw [pow2_eq_zpow, he0]
  split_ifs with hc
  · refine ⟨by rw [he0]; exact hc, ?_⟩
    rw [zpow_add₀ (by norm_num), he0, zpow_one]
    linarith
  · push_neg at hc
    constructor
    · rw [zpow_sub₀ (by norm_num), he0, zpow_one]
      exact hlo
    · rw [sub_add_cancel, he0]
      exact hc

theorem binade_lt_of_lt_zpow {q : ℚ} (hq : 0 < q) {m : ℤ} (h : q < (2 : ℚ) ^ m) :
    binade q < m := by
  by_contra hcon
  push_neg at hcon
  have h1 : (2 : ℚ) ^ m ≤ (2 : ℚ) ^ binade q := zpow_le_zpow_right₀ (by norm_num) hcon
  have := (binade_spec hq).1
  linarith

theorem binade_mono {a b : ℚ} (ha : 0 < a) (h : a ≤ b) : binade a ≤ binade b := by
  have hb : 0 < b := lt_of_lt_of_le ha h
  have h1 := (binade_spec ha).1
  have h2 := (binade_spec hb).2
  by_contra hcon
  push_neg at hcon
  have h3 : (2 : ℚ) ^ (binade b + 1) ≤ (2 : ℚ) ^ binade a :=
    zpow_le_zpow_right₀ (by norm_num) (by omega)
  linarith

theorem roundPos_nonneg (p : ℕ) (emin : ℤ) {q : ℚ} (hq : 0 < q) : 0 ≤ roundPos p emin q := by
  unfold roundPos
  have h := roundToGrid_mono (max (binade q - ((p : ℤ) - 1)) emin) hq.le
  rwa [roundToGrid_zero] at h

theorem roundPos_mono (p : ℕ) (hp : 1 ≤ p) (emin : ℤ) {a b : ℚ} (ha : 0 < a) (h : a ≤ b) :
    roundPos p emin a ≤ roundPos p emin b := by
  have hb : 0 < b := lt_of_lt_of_le ha h
  have he : binade a ≤ binade b := binade_mono ha h
  have hp1 : (1 : ℤ) ≤ (p : ℤ) := by exact_mod_cast hp
  unfold roundPos
  rcases lt_or_ge (max (binade a - ((p : ℤ) - 1)) emin) (max (binade b - ((p : ℤ) - 1)) emin)
    with hlt | hge
  · -- the two grids differ: the power of two at the bottom of the binade of `b`
    -- lies on both and separates `a` from `b`
    have hea : binade a < binade b := by omega
    have hkb : max (binade b - ((p : ℤ) - 1)) emin ≤ binade b := by omega
    have hka : max (binade a - ((p : ℤ) - 1)) emin ≤ binade b := le_trans hlt.le hkb
    have h1 : a ≤ (2 : ℚ) ^ binade b := by
      have h2 := (binade_spec ha).2
      have h3 : (2 : ℚ) ^ (binade a + 1) ≤ (2 : ℚ) ^ binade b :=
        zpow_le_zpow_right₀ (by norm_num) (by omega)
      linarith
    have h2 : (2 : ℚ) ^ binade b ≤ b := (binade_spec hb).1
    calc roundToGrid (max (binade a - ((p : ℤ) - 1)) emin) a
        ≤ roundToGrid (max (binade a - ((p : ℤ) - 1)) emin) ((2 : ℚ) ^ binade b) :=
          roundToGrid_mono _ h1
      _ = (2 : ℚ) ^ binade b := roundToGrid_zpow hka
      _ = roundToGrid (max (binade b - ((p : ℤ) - 1)) emin) ((2 : ℚ) ^ binade b) :=
          (roundToGrid_zpow hkb).symm
      _ ≤ roundToGrid (max (binade b - ((p : ℤ) - 1)) emin) b := roundToGrid_mono _ h2
  · have heq : max (binade a - ((p : ℤ) - 1)) emin = max (binade b - ((p : ℤ) - 1)) emin := by
      omega
    rw [heq]
    exact roundToGrid_mono _ h

/-- Rounding is monotone: the basis of every order argument on computed floats. -/
theorem roundFloat_mono (p : ℕ) (hp : 1 ≤ p) (emin : ℤ) {a b : ℚ} (h : a ≤ b) :
    roundFloat p emin a ≤ roundFloat p emin b := by
  unfold roundFloat
  rcases lt_trichotomy a 0 with ha | ha | ha
  · have ha' : 0 < -a := by linarith
    have hna := roundPos_nonneg p emin ha'
    rw [if_neg ha.ne, if_neg (not_lt.mpr ha.le)]
    rcases lt_trichotomy b 0 with hb | hb | hb
    · have hb' : 0 < -b := by linarith
      rw [if_neg hb.ne, if_neg (not_lt.mpr hb.le)]
      have := roundPos_mono p hp emin hb' (by linarith : -b ≤ -a)
      linarith
    · rw [if_pos hb]
      linarith
    · rw [if_neg hb.ne.symm, if_pos hb]
      have := roundPos_nonneg p emin hb
      linarith
  · have hb : 0 ≤ b := by linarith
    rw [if_pos ha]
    rcases hb.lt_or_eq with hb | hb
    · rw [if_neg hb.ne.symm, if_pos hb]
      exact roundPos_nonneg p emin hb
    · rw [if_pos hb.symm]
  · have hb : 0 < b := lt_of_lt_of_le ha h
    rw [if_neg ha.ne.symm, if_pos ha, if_neg hb.ne.symm, if_pos hb]
    exact roundPos_mono p hp emin ha h

/-- Naturals below `2 ^ p` are exactly representable. -/
theorem roundFloat_natCast (p : ℕ) (emin : ℤ) (hemin : emin ≤ 0) (n : ℕ) (hn : n < 2 ^ p) :
    roundFloat p emin (n : ℚ) = n := by
  unfold roundFloat
  rcases Nat.eq_zero_or_pos n with h0 | hpos
  · subst h0
    simp
  · have hq : (0 : ℚ) < n := by exact_mod_cast hpos
    rw [if_neg hq.ne.symm, if_pos hq]
    unfold roundPos
    have hlt : (n : ℚ) < (2 : ℚ) ^ (p : ℤ) := by
      rw [zpow_natCast]
      exact_mod_cast hn
    have he : binade (n : ℚ) < (p : ℤ) := binade_lt_of_lt_zpow hq hlt
    have hk : max (binade (n : ℚ) - ((p : ℤ) - 1)) emin ≤ 0 := max_le (by omega) hemin
    generalize max (binade (n : ℚ) - ((p : ℤ) - 1)) emin = k at hk
    obtain ⟨j, rfl⟩ : ∃ j : ℕ, k = -(j : ℤ) := ⟨(-k).toNat, by omega⟩
    have h1 : (n : ℚ) = (((n * 2 ^ j : ℕ) : ℤ) : ℚ) * pow2 (-(j : ℤ)) := by
      rw [pow2_eq_zpow, zpow_neg, zpow_natCast]
      push_cast
      field_simp
    rw [h1, roundToGrid_int_mul]

theorem roundF64_mono {a b : ℚ} (h : a ≤ b) : roundF64 a ≤ roundF64 b :=
  roundFloat_mono 53 (by norm_num) _ h

theorem roundF32_mono {a b : ℚ} (h : a ≤ b) : roundF32 a ≤ roundF32 b :=
  roundFloat_mono 24 (by norm_num) _ h

theorem roundF64_natCast (n : ℕ) (hn : n < 2 ^ 53) : roundF64 (n : ℚ) = n :=
  roundFloat_natCast 53 _ (by norm_num) n hn

theorem roundF64_intCast {w : ℤ} (h0 : 0 ≤ w) (h : w < 2 ^ 53) : roundF64 (w : ℚ) = w := by
  lift w to ℕ using h0
  have : w < 2 ^ 53 := by exact_mod_cast h
  simpa using roundF64_natCast w this

theorem roundF64_zero : roundF64 0 = 0 := by
  simp [roundF64, roundFloat]

theorem roundF64_one : roundF64 1 = 1 := by
  simpa using roundF64_natCast 1 (by norm_num)

theorem roundF64_nonneg {q : ℚ} (h : 0 ≤ q) : 0 ≤ roundF64 q := by
  have := roundF64_mono h
  rwa [roundF64_zero] at this

theorem roundF64_two_pow_54 : roundF64 18014398509481984 = 18014398509481984 := by
  decide!

/-- Conversion to `int` is monotone as long as the larger float is below `2^63`. -/
theorem goInt_mono {a b : ℚ} (h : a ≤ b) (hb : b < 9223372036854775808) :
    goInt a ≤ goInt b := by
  have hta : (if 0 ≤ a then ⌊a⌋ else ⌈a⌉) ≤ (if 0 ≤ b then ⌊b⌋ else ⌈b⌉) := by
    split_ifs with ha hb0 hb0
    · exact Int.floor_le_floor h
    · exact absurd (le_trans ha h) hb0
    · push_neg at ha
      have h1 : ⌈a⌉ ≤ 0 := Int.ceil_le.mpr (by exact_mod_cast ha.le)
      have h2 : 0 ≤ ⌊b⌋ := Int.floor_nonneg.mpr hb0
      omega
    · exact Int.ceil_le_ceil h
  have htb : (if 0 ≤ b then ⌊b⌋ else ⌈b⌉) ≤ 9223372036854775807 := by
    split_ifs with hb0
    · have : ⌊b⌋ < 9223372036854775808 := Int.floor_lt.mpr (by exact_mod_cast hb)
      omega
    · push_neg at hb0
      have h1 : ⌈b⌉ ≤ 0 := Int.ceil_le.mpr (by exact_mod_cast hb0.le)
      omega
  unfold goInt
  simp only []
  generalize (if 0 ≤ a then ⌊a⌋ else ⌈a⌉) = ta at hta
  generalize (if 0 ≤ b then ⌊b⌋ else ⌈b⌉) = tb at hta htb
  split_ifs <;> omega

theorem goInt_intCast (m : ℤ) (h1 : -9223372036854775808 ≤ m) (h2 : m < 9223372036854775808) :
    goInt (m : ℚ) = m := by
  unfold goInt
  have e : (if (0 : ℚ) ≤ (m : ℚ) then ⌊(m : ℚ)⌋ else ⌈(m : ℚ)⌉) = m := by
    split_ifs <;> simp
  simp only [e]
  rw [if_pos ⟨h1, by omega⟩]

theorem goInt_nonneg {q : ℚ} (h : 0 ≤ q) (hq : q < 9223372036854775808) : 0 ≤ goInt q := by
  have := goInt_mono h hq
  rwa [show goInt (0 : ℚ) = 0 from by
    simpa using goInt_intCast 0 (by norm_num) (by norm_num)] at this

/-! ## Region selection -/

theorem Rect_of_le {x0 y0 x1 y1 : ℤ} (hx : x0 ≤ x1) (hy : y0 ≤ y1) :
    Rect x0 y0 x1 y1 = { Min := { X := x0, Y := y0 }, Max := { X := x1, Y := y1 } } := by
  unfold Rect
  rw [if_neg (by omega), if_neg (by omega)]

/-- One axis of `getSubRectangleForImage` on a normalized box: `a` is the raw
minimum, `b` the raw maximum before clamping. -/
theorem axis_bounds {W : ℤ} (hW0 : 0 < W) (hW : W < 2 ^ 53) {x w : ℚ}
    (hx0 : 0 ≤ x) (hx1 : x ≤ 1) (hw0 : 0 ≤ w) (hw1 : w ≤ 1) (hfx : IsFloat64 x) :
    0 ≤ goInt (roundF64 (roundF64 W * x)) ∧
    goInt (roundF64 (roundF64 W * x)) ≤ W ∧
    goInt (roundF64 (roundF64 W * x)) ≤ goInt (roundF64 (roundF64 W * roundF64 (x + w))) ∧
    (1 ≤ x + w → W ≤ goInt (roundF64 (roundF64 W * roundF64 (x + w)))) ∧
    (w = 0 → goInt (roundF64 (roundF64 W * roundF64 (x + w))) =
      goInt (roundF64 (roundF64 W * x))) := by
  have hWf : roundF64 (W : ℚ) = W := roundF64_intCast hW0.le hW
  have hWq : (0 : ℚ) < W := by exact_mod_cast hW0
  have hWq53 : (W : ℚ) < 9007199254740992 := by
    have : W < 9007199254740992 := by norm_num at hW; exact hW
    exact_mod_cast this
  have hWr1 : -9223372036854775808 ≤ W := by omega
  have hWr2 : W < 9223372036854775808 := by norm_num at hW; omega
  have hs : x ≤ roundF64 (x + w) := by
    have h1 := roundF64_mono (by linarith : x ≤ x + w)
    rwa [show roundF64 x = x from hfx] at h1
  have hs2 : roundF64 (x + w) ≤ 2 := by
    have h1 := roundF64_mono (by linarith : x + w ≤ 2)
    rwa [show roundF64 (2 : ℚ) = 2 from by
      simpa using roundF64_natCast 2 (by norm_num)] at h1
  -- the raw minimum and maximum, as floats, stay far below `2^63`
  have ha : roundF64 ((W : ℚ) * x) ≤ W := by
    have h1 : (W : ℚ) * x ≤ W := by nlinarith
    have h2 := roundF64_mono h1
    rwa [hWf] at h2
  have hb : roundF64 ((W : ℚ) * roundF64 (x + w)) ≤ 18014398509481984 := by
    have h1 : (W : ℚ) * roundF64 (x + w) ≤ 18014398509481984 := by nlinarith
    have h2 := roundF64_mono h1
    rwa [roundF64_two_pow_54] at h2
  have ha63 : roundF64 ((W : ℚ) * x) < 9223372036854775808 := by linarith
  have hb63 : roundF64 ((W : ℚ) * roundF64 (x + w)) < 9223372036854775808 := by linarith
  rw [hWf]
  refine ⟨?_, ?_, ?_, ?_, ?_⟩
  · exact goInt_nonneg (roundF64_nonneg (mul_nonneg hWq.le hx0)) ha63
  · have h2 := goInt_mono ha (by linarith)
    rwa [goInt_intCast W hWr1 hWr2] at h2
  · exact goInt_mono (roundF64_mono (mul_le_mul_of_nonneg_left hs hWq.le)) hb63
  · intro h1
    have h2 : (1 : ℚ) ≤ roundF64 (x + w) := by
      have := roundF64_mono h1
      rwa [roundF64_one] at this
    have h3 : (W : ℚ) ≤ W * roundF64 (x + w) := by nlinarith
    have h4 := goInt_mono (roundF64_mono h3) hb63
    rwa [hWf, goInt_intCast W hWr1 hWr2] at h4
  · intro h0
    rw [h0, add_zero, show roundF64 x = x from hfx]

/-- The region of a normalized box, in closed form: no corner swap happens and only
the clamp of the maximum to the image size can fire. -/
theorem getSubRectangleForImage_normalized (W H : ℤ) (hW0 : 0 < W) (hW : W < 2 ^ 53)
    (hH0 : 0 < H) (hH : H < 2 ^ 53) (x y w h : ℚ)
    (hx0 : 0 ≤ x) (hx1 : x ≤ 1) (hy0 : 0 ≤ y) (hy1 : y ≤ 1)
    (hw0 : 0 ≤ w) (hw1 : w ≤ 1) (hh0 : 0 ≤ h) (hh1 : h ≤ 1)
    (hfx : IsFloat64 x) (hfy : IsFloat64 y) :
    getSubRectangleForImage W H [x, y, w, h] = some
      { Min := { X := goInt (roundF64 (roundF64 W * x)), Y := goInt (roundF64 (roundF64 H * y)) }
        Max := { X := min W (goInt (roundF64 (roundF64 W * roundF64 (x + w))))
                 Y := min H (goInt (roundF64 (roundF64 H * roundF64 (y + h)))) } } := by
  obtain ⟨ax0, axW, axb, -, -⟩ := axis_bounds hW0 hW hx0 hx1 hw0 hw1 hfx
  obtain ⟨ay0, ayH, ayb, -, -⟩ := axis_bounds hH0 hH hy0 hy1 hh0 hh1 hfy
  simp only [getSubRectangleForImage]
  rw [if_neg (by omega), if_neg (by omega)]
  have e1 : (if goInt (roundF64 (roundF64 W * roundF64 (x + w))) > W then W
      else goInt (roundF64 (roundF64 W * roundF64 (x + w)))) =
      min W (goInt (roundF64 (roundF64 W * roundF64 (x + w)))) := by
    split_ifs <;> omega
  have e2 : (if goInt (roundF64 (roundF64 H * roundF64 (y + h))) > H then H
      else goInt (roundF64 (roundF64 H * roundF64 (y + h)))) =
      min H (goInt (roundF64 (roundF64 H * roundF64 (y + h)))) := by
    split_ifs <;> omega
  rw [e1, e2, Rect_of_le (by omega) (by omega)]

theorem newRect_of_nonneg (r : Rectangle) (hx : 0 ≤ r.Dx) (hy : 0 ≤ r.Dy) :
    newRect r = { Min := { X := 0, Y := 0 }, Max := { X := r.Dx, Y := r.Dy } } := by
  unfold newRect
  exact Rect_of_le hx hy

/-! ## The face loop -/

/-- An accepted detection appends exactly one record, whose fields are determined
by the detection and the two pupil locator results. -/
theorem faceStep_accept {σ : Type} (ox oy : ℤ) (qT : ℚ) (sT pb : ℤ)
    (det : σ → Puploc → Puploc × σ) (acc : σ × List FaceResult) (face : Detection)
    (hq : face.Q ≥ qT) (hs : face.Scale ≥ sT) :
    ∃ fr : FaceResult,
      faceStep ox oy qT sT pb det acc face =
        ((det (det acc.1 (leftEyeSeed face pb)).2 (rightEyeSeed face pb)).2, acc.2 ++ [fr]) ∧
      fr.Face = some (NewLocationFromOffsetCenterSize ox oy face.Col face.Row face.Scale) ∧
      fr.Quality = face.Q ∧
      fr.LeftEye =
        (if (det acc.1 (leftEyeSeed face pb)).1.Row > 0 ∧
            (det acc.1 (leftEyeSeed face pb)).1.Col > 0 then
          some (NewLocationFromOffsetCenterSize ox oy (det acc.1 (leftEyeSeed face pb)).1.Col
            (det acc.1 (leftEyeSeed face pb)).1.Row
            (goInt (det acc.1 (leftEyeSeed face pb)).1.Scale))
        else none) ∧
      fr.RightEye =
        (if (det (det acc.1 (leftEyeSeed face pb)).2 (rightEyeSeed face pb)).1.Row > 0 ∧
            (det (det acc.1 (leftEyeSeed face pb)).2 (rightEyeSeed face pb)).1.Col > 0 then
          some (NewLocationFromOffsetCenterSize ox oy
            (det (det acc.1 (leftEyeSeed face pb)).2 (rightEyeSeed face pb)).1.Col
            (det (det acc.1 (leftEyeSeed face pb)).2 (rightEyeSeed face pb)).1.Row
            (goInt (det (det acc.1 (leftEyeSeed face pb)).2 (rightEyeSeed face pb)).1.Scale))
        else none) := by
  unfold faceStep
  rw [if_pos hq, if_pos hs]
  rcases hL : det acc.1 (leftEyeSeed face pb) with ⟨L, s1⟩
  rcases hR : det s1 (rightEyeSeed face pb) with ⟨R, s2⟩
  simp only [hR]
  by_cases c1 : L.Row > 0 ∧ L.Col > 0 <;> by_cases c2 : R.Row > 0 ∧ R.Col > 0 <;>
    simp only [c1, c2, if_true, if_false] <;> exact ⟨_, rfl, rfl, rfl, rfl, rfl⟩

/-- A detection failing either test leaves the loop state untouched. -/
theorem faceStep_reject {σ : Type} (ox oy : ℤ) (qT : ℚ) (sT pb : ℤ)
    (det : σ → Puploc → Puploc × σ) (acc : σ × List FaceResult) (face : Detection)
    (h : ¬ (face.Q ≥ qT ∧ face.Scale ≥ sT)) :
    faceStep ox oy qT sT pb det acc face = acc := by
  unfold faceStep
  by_cases hq : face.Q ≥ qT
  · have hs : ¬ face.Scale ≥ sT := fun hs => h ⟨hq, hs⟩
    rw [if_pos hq, if_neg hs]
  · rw [if_neg hq]

/-- The loop is an order-preserving filter-and-map over the detections: the faces
and qualities it collects are those of the accepted detections, in input order. -/
theorem foldl_faceStep_map {σ : Type} (ox oy : ℤ) (qT : ℚ) (sT pb : ℤ)
    (det : σ → Puploc → Puploc × σ) (faces : List Detection) :
    ∀ acc : σ × List FaceResult,
      ((faces.foldl (faceStep ox oy qT sT pb det) acc).2).map (fun r => (r.Face, r.Quality)) =
        acc.2.map (fun r => (r.Face, r.Quality)) ++
          (faces.filter (fun f => decide (f.Q ≥ qT) && decide (f.Scale ≥ sT))).map
            (fun f => (some (NewLocationFromOffsetCenterSize ox oy f.Col f.Row f.Scale), f.Q)) := by
  induction faces with
  | nil => intro acc; simp
  | cons face rest ih =>
    intro acc
    rw [List.foldl_cons, ih]
    by_cases h : face.Q ≥ qT ∧ face.Scale ≥ sT
    · obtain ⟨fr, hfr, hF, hQ, -, -⟩ := faceStep_accept ox oy qT sT pb det acc face h.1 h.2
      have h1 := h.1
      have h2 := h.2
      rw [hfr]
      simp [List.filter_cons, h1, h2, hF, hQ]
    · have hd : (decide (face.Q ≥ qT) && decide (face.Scale ≥ sT)) = false := by
        simpa using h
      rw [faceStep_reject ox oy qT sT pb det acc face h]
      simp only [List.filter_cons, hd]
      simp

theorem foundFaces_map {σ : Type} (ox oy : ℤ) (qt st : ℚ)
    (det : σ → Puploc → Puploc × σ) (s0 : σ) (faces : List Detection) :
    (foundFaces ox oy qt st det s0 faces).map (fun r => (r.Face, r.Quality)) =
      (faces.filter (fun f => decide (f.Q ≥ roundF32 qt) && decide (f.Scale ≥ goInt st))).map
        (fun f => (some (NewLocationFromOffsetCenterSize ox oy f.Col f.Row f.Scale), f.Q)) := by
  unfold foundFaces
  simpa using foldl_faceStep_map ox oy (roundF32 qt) (goInt st) 63 det faces (s0, [])

theorem foundFaces_length {σ : Type} (ox oy : ℤ) (qt st : ℚ)
    (det : σ → Puploc → Puploc × σ) (s0 : σ) (faces : List Detection) :
    (foundFaces ox oy qt st det s0 faces).length =
      (faces.filter
        (fun f => decide (f.Q ≥ roundF32 qt) && decide (f.Scale ≥ goInt st))).length := by
  have h := congrArg List.length (foundFaces_map ox oy qt st det s0 faces)
  simpa using h

/-- Processing one more detection after any prefix: one more record when it is
accepted, the same list otherwise. -/
theorem foundFaces_append_singleton {σ : Type} (ox oy : ℤ) (qt st : ℚ)
    (det : σ → Puploc → Puploc × σ) (s0 : σ) (pre : List Detection) (face : Detection) :
    (foundFaces ox oy qt st det s0 (pre ++ [face])).length =
      (foundFaces ox oy qt st det s0 pre).length +
        (if face.Q ≥ roundF32 qt ∧ face.Scale ≥ goInt st then 1 else 0) := by
  rw [foundFaces_length, foundFaces_length, List.filter_append, List.length_append]
  congr 1
  by_cases h : face.Q ≥ roundF32 qt ∧ face.Scale ≥ goInt st
  · have hd : (decide (face.Q ≥ roundF32 qt) && decide (face.Scale ≥ goInt st)) = true := by
      simp [h.1, h.2]
    rw [if_pos h]
    simp only [List.filter_cons, hd]
    simp
  · have hd : (decide (face.Q ≥ roundF32 qt) && decide (face.Scale ≥ goInt st)) = false := by
      simpa using h
    rw [if_neg h]
    simp only [List.filter_cons, hd]
    simp

/-- The loop on a single accepted detection. -/
theorem foundFaces_singleton_accept {σ : Type} (ox oy : ℤ) (qt st : ℚ)
    (det : σ → Puploc → Puploc × σ) (s0 : σ) (face : Detection)
    (hq : face.Q ≥ roundF32 qt) (hs : face.Scale ≥ goInt st) :
    ∃ fr : FaceResult, foundFaces ox oy qt st det s0 [face] = [fr] ∧
      fr.Face = some (NewLocationFromOffsetCenterSize ox oy face.Col face.Row face.Scale) ∧
      fr.Quality = face.Q ∧
      (fr.LeftEye.isSome ↔ ((det s0 (leftEyeSeed face 63)).1.Row > 0 ∧
        (det s0 (leftEyeSeed face 63)).1.Col > 0)) ∧
      (fr.RightEye.isSome ↔
        ((det (det s0 (leftEyeSeed face 63)).2 (rightEyeSeed face 63)).1.Row > 0 ∧
         (det (det s0 (leftEyeSeed face 63)).2 (rightEyeSeed face 63)).1.Col > 0)) := by
  obtain ⟨fr, hfr, hF, hQ, hL, hR⟩ :=
    faceStep_accept ox oy (roundF32 qt) (goInt st) 63 det (s0, []) face hq hs
  refine ⟨fr, ?_, hF, hQ, ?_, ?_⟩
  · unfold foundFaces
    simp [hfr]
  · rw [hL]
    split_ifs with c <;> simp [c]
  · rw [hR]
    split_ifs with c <;> simp [c]

/-! ## Box parsing -/

theorem parseLoop_length {F : Type} (pf : List Char → Option F) (ps : List (List Char)) :
    ∀ (i : ℕ) (bounds : List F), (parseLoop pf i ps bounds).length = bounds.length := by
  induction ps with
  | nil => intro i bounds; rfl
  | cons param rest ih =>
    intro i bounds
    unfold parseLoop
    cases pf (TrimSpace param) with
    | none => exact ih _ _
    | some val => simp only []; rw [ih, List.length_set]

/-- Entry `j` after the loop started at index `i`: the parsed value of field `j - i`
when there is one, the previous content otherwise. -/
theorem parseLoop_getElem? {F : Type} (pf : List Char → Option F) (ps : List (List Char)) :
    ∀ (i : ℕ) (bounds : List F) (j : ℕ), j < bounds.length →
      (parseLoop pf i ps bounds)[j]? =
        ((if i ≤ j then (ps[j - i]?).bind (fun f => pf (TrimSpace f)) else none).orElse
          (fun _ => bounds[j]?)) := by
  induction ps with
  | nil =>
    intro i bounds j _
    simp [parseLoop]
  | cons param rest ih =>
    intro i bounds j hj
    unfold parseLoop
    rcases lt_trichotomy j i with hlt | heq | hgt
    · have h1 : ¬ i ≤ j := by omega
      have h2 : ¬ i + 1 ≤ j := by omega
      cases hp : pf (TrimSpace param) with
      | none =>
        simp only []
        rw [ih (i + 1) bounds j hj, if_neg h1, if_neg h2]
      | some val =>
        simp only []
        rw [ih (i + 1) (bounds.set i val) j (by rw [List.length_set]; exact hj), if_neg h1,
          if_neg h2]
        simp [List.getElem?_set_ne (by omega : i ≠ j)]
    · subst heq
      have h2 : ¬ j + 1 ≤ j := by omega
      cases hp : pf (TrimSpace param) with
      | none =>
        simp only []
        rw [ih (j + 1) bounds j hj, if_neg h2]
        simp [hp]
      | some val =>
        simp only []
        rw [ih (j + 1) (bounds.set j val) j (by rw [List.length_set]; exact hj), if_neg h2]
        simp [hp, hj]
    · obtain ⟨k, rfl⟩ : ∃ k, j = i + 1 + k := ⟨j - (i + 1), by omega⟩
      have h1 : i ≤ i + 1 + k := by omega
      have h2 : i + 1 ≤ i + 1 + k := by omega
      have e1 : i + 1 + k - i = k + 1 := by omega
      have e2 : i + 1 + k - (i + 1) = k := by omega
      cases hp : pf (TrimSpace param) with
      | none =>
        simp only []
        rw [ih (i + 1) bounds _ hj, if_pos h1, if_pos h2, e1, e2]
        simp
      | some val =>
        simp only []
        rw [ih (i + 1) (bounds.set i val) _ (by rw [List.length_set]; exact hj), if_pos h1,
          if_pos h2, e1, e2]
        simp [List.getElem?_set_ne (by omega : i ≠ i + 1 + k)]

theorem parseBoundingBox_length {F : Type} [OfNat F 0] [OfNat F 1]
    (pf : List Char → Option F) (s : List Char) : (parseBoundingBox pf s).length = 4 := by
  unfold parseBoundingBox
  simp only []
  rw [parseLoop_length]
  rfl

theorem parseBoundingBox_getElem? {F : Type} [OfNat F 0] [OfNat F 1]
    (pf : List Char → Option F) (s : List Char) (i : Fin 4) :
    (parseBoundingBox pf s)[i.val]? =
      some ((((SplitComma (Trim s [Char.ofNat 39, Char.ofNat 34]))[i.val]?).bind
        (fun f => pf (TrimSpace f))).getD (if i.val < 2 then 0 else 1)) := by
  unfold parseBoundingBox
  simp only []
  rw [parseLoop_getElem? pf _ 0 _ i.val (by simp)]
  have htake : (if (SplitComma (Trim s [Char.ofNat 39, Char.ofNat 34])).length > 4 then
      (SplitComma (Trim s [Char.ofNat 39, Char.ofNat 34])).take 4
      else SplitComma (Trim s [Char.ofNat 39, Char.ofNat 34]))[i.val]? =
      (SplitComma (Trim s [Char.ofNat 39, Char.ofNat 34]))[i.val]? := by
    split_ifs
    · rw [List.getElem?_take_of_lt i.isLt]
    · rfl
  rw [if_pos (Nat.zero_le _), Nat.sub_zero, htake]
  cases ((SplitComma (Trim s [Char.ofNat 39, Char.ofNat 34]))[i.val]?).bind
      (fun f => pf (TrimSpace f)) with
  | some v => simp
  | none =>
    fin_cases i <;> simp

theorem length_filter_le_of_imp {α : Type} (p q : α → Bool)
    (h : ∀ x, p x = true → q x = true) (l : List α) :
    (l.filter p).length ≤ (l.filter q).length := by
  induction l with
  | nil => simp
  | cons a t ih =>
    by_cases hp : p a = true
    · have hq := h a hp
      simp only [List.filter_cons, hp, hq, if_true, List.length_cons]
      omega
    · by_cases hq : q a = true
      · simp only [List.filter_cons, hp, hq, if_true, List.length_cons]
        simp only [Bool.false_eq_true, if_false]
        omega
      · simp only [List.filter_cons, hp, hq]
        simpa using ih

/-- Passing the converted higher thresholds implies passing the converted lower
ones, as long as the higher size threshold is below `2^63`: rounding to `float32`
is monotone, and so is the conversion to `int` on that range. -/
theorem accept_of_accept_higher {q1 s1 q2 s2 : ℚ} (hq : q1 ≤ q2) (hs : s1 ≤ s2)
    (hr : s2 < 9223372036854775808)
    (face : Detection) (h : face.Q ≥ roundF32 q2 ∧ face.Scale ≥ goInt s2) :
    face.Q ≥ roundF32 q1 ∧ face.Scale ≥ goInt s1 :=
  ⟨le_trans (roundF32_mono hq) h.1, le_trans (goInt_mono hs hr) h.2⟩

/-- Below the overflow of the size threshold conversion the filter is monotone: for
`q1 ≤ q2` and `s1 ≤ s2 < 2^63` the loop emits at most as many records under
(q2, s2) as under (q1, s1). -/
theorem face_filter_monotone_below_overflow {σ : Type} (ox oy : ℤ) (q1 s1 q2 s2 : ℚ)
    (hq : q1 ≤ q2) (hs : s1 ≤ s2) (hr : s2 < 9223372036854775808)
    (det : σ → Puploc → Puploc × σ) (st st1 : σ) (faces : List Detection) :
    (foundFaces ox oy q2 s2 det st faces).length ≤
      (foundFaces ox oy q1 s1 det st1 faces).length := by
  rw [foundFaces_length, foundFaces_length]
  apply length_filter_le_of_imp
  intro f hf
  have h2 : f.Q ≥ roundF32 q2 ∧ f.Scale ≥ goInt s2 := by simpa using hf
  have h1 := accept_of_accept_higher hq hs hr f h2
  simp [h1.1, h1.2]

/-! ## The claims -/

/-- C1, at the failing input: with `-fq 1 -fs 40.5` the loop emits the record of a
detection of score 2 and scale 40, although 40 is below the minimum face size 40.5:
the size threshold is converted to the integer 40 before the comparison. -/
theorem face_emitted_below_min_size :
    foundFaces 0 0 1 (81 / 2) noEyes () [{ Row := 100, Col := 100, Scale := 40, Q := 2 }] =
      [{ Face := some { CX := 100, CY := 100, Size := 40 }
         LeftEye := none
         RightEye := none
         Quality := 2 }] ∧
    ((40 : ℤ) : ℚ) < 81 / 2 := by
  decide!

/-- C2, at the failing input: on a 10 × 10 image the box (2, 0, 1, 1) yields the
rectangle (10, 0)-(20, 10), whose maximum X is 20, beyond the image width 10. The
minimum is clamped only from below and the maximum only from above, and
`image.Rect` then swaps the two. -/
theorem region_of_box_beyond_image :
    getSubRectangleForImage 10 10 [2, 0, 1, 1] =
      some { Min := { X := 10, Y := 0 }, Max := { X := 20, Y := 10 } } := by
  decide!

/-- C3: for an image of width `W` and height `H` (positive, and below `2^53` so that
`float64(width)` is exact) and a box whose components are `float64` values in
[0, 1], the region lies inside the image, `0 ≤ Min.X ≤ Max.X ≤ W` and
`0 ≤ Min.Y ≤ Max.Y ≤ H`, with `Max.X = W` when `x + w ≥ 1` and `Max.Y = H` when
`y + h ≥ 1`. -/
theorem region_normalized_clamped (W H : ℤ) (hW0 : 0 < W) (hW : W < 2 ^ 53)
    (hH0 : 0 < H) (hH : H < 2 ^ 53) (x y w h : ℚ)
    (hx : 0 ≤ x ∧ x ≤ 1) (hy : 0 ≤ y ∧ y ≤ 1) (hw : 0 ≤ w ∧ w ≤ 1) (hh : 0 ≤ h ∧ h ≤ 1)
    (hfx : IsFloat64 x) (hfy : IsFloat64 y) :
    ∃ r : Rectangle, getSubRectangleForImage W H [x, y, w, h] = some r ∧
      0 ≤ r.Min.X ∧ r.Min.X ≤ r.Max.X ∧ r.Max.X ≤ W ∧
      0 ≤ r.Min.Y ∧ r.Min.Y ≤ r.Max.Y ∧ r.Max.Y ≤ H ∧
      (x + w ≥ 1 → r.Max.X = W) ∧ (y + h ≥ 1 → r.Max.Y = H) := by
  obtain ⟨ax0, axW, axb, axf, -⟩ := axis_bounds hW0 hW hx.1 hx.2 hw.1 hw.2 hfx
  obtain ⟨ay0, ayH, ayb, ayf, -⟩ := axis_bounds hH0 hH hy.1 hy.2 hh.1 hh.2 hfy
  refine ⟨_, getSubRectangleForImage_normalized W H hW0 hW hH0 hH x y w h hx.1 hx.2 hy.1 hy.2
    hw.1 hw.2 hh.1 hh.2 hfx hfy, ?_, ?_, ?_, ?_, ?_, ?_, ?_, ?_⟩
  · exact ax0
  · exact le_min axW axb
  · exact min_le_left _ _
  · exact ay0
  · exact le_min ayH ayb
  · exact min_le_left _ _
  · intro h1
    exact min_eq_left (axf h1)
  · intro h1
    exact min_eq_left (ayf h1)

/-- C3 at a concrete input: a 640 × 480 image and the box (1/2, 1/4, 1, 1/2), which
overshoots the right edge. -/
theorem region_normalized_clamped_witness :
    ∃ r : Rectangle, getSubRectangleForImage 640 480 [1 / 2, 1 / 4, 1, 1 / 2] = some r ∧
      0 ≤ r.Min.X ∧ r.Min.X ≤ r.Max.X ∧ r.Max.X ≤ 640 ∧
      0 ≤ r.Min.Y ∧ r.Min.Y ≤ r.Max.Y ∧ r.Max.Y ≤ 480 ∧
      ((1 / 2 : ℚ) + 1 ≥ 1 → r.Max.X = 640) ∧ ((1 / 4 : ℚ) + 1 / 2 ≥ 1 → r.Max.Y = 480) :=
  region_normalized_clamped 640 480 (by norm_num) (by norm_num) (by norm_num) (by norm_num)
    (1 / 2) (1 / 4) 1 (1 / 2) (by norm_num) (by norm_num) (by norm_num) (by norm_num)
    (by decide!) (by decide!)

/-- C4, as stated, fails: for faceCol = 100, faceRow = 100, faceScale = 80 the
right-eye seed is not (row 94, col 115, scale 20): `int(0.185 * 80)` is 14. -/
theorem right_eye_seed_counterexample :
    ¬ ((rightEyeSeed { Row := 100, Col := 100, Scale := 80, Q := 1 } 63).Row = 94 ∧
       (rightEyeSeed { Row := 100, Col := 100, Scale := 80, Q := 1 } 63).Col = 115 ∧
       (rightEyeSeed { Row := 100, Col := 100, Scale := 80, Q := 1 } 63).Scale = 20) := by
  decide!

/-- C4, amended: for faceCol = 100, faceRow = 100, faceScale = 80 (any score) the
left-eye seed is (row 94, col 86, scale 20) and the right-eye seed is
(row 94, col 114, scale 20), both with 63 perturbations. -/
theorem eye_seeds_example (q : ℚ) :
    leftEyeSeed { Row := 100, Col := 100, Scale := 80, Q := q } 63 =
      { Row := 94, Col := 86, Scale := 20, Perturbs := 63 } ∧
    rightEyeSeed { Row := 100, Col := 100, Scale := 80, Q := q } 63 =
      { Row := 94, Col := 114, Scale := 20, Perturbs := 63 } := by
  have h1 : goInt (roundF32 (roundF32 (75 / 1000) * roundF32 ((80 : ℤ) : ℚ))) = 6 := by decide!
  have h2 : goInt (roundF32 (roundF32 (175 / 1000) * roundF32 ((80 : ℤ) : ℚ))) = 14 := by decide!
  have h3 : goInt (roundF32 (roundF32 (185 / 1000) * roundF32 ((80 : ℤ) : ℚ))) = 14 := by decide!
  have h4 : roundF32 (roundF32 ((80 : ℤ) : ℚ) * roundF32 (25 / 100)) = 20 := by decide!
  constructor
  · simp only [leftEyeSeed, h1, h2, h4]
    norm_num
  · simp only [rightEyeSeed, h1, h3, h4]
    norm_num

/-- C5: for every region offset (ox, oy), the face locations of the emitted records
are exactly (c + ox, r + oy, s) for the accepted detections (row r, column c,
scale s), the size unchanged; with offset (0, 0) they are the local (c, r, s). -/
theorem face_location_remap {σ : Type} (ox oy : ℤ) (qualityThreshold sizeThreshold : ℚ)
    (det : σ → Puploc → Puploc × σ) (s0 : σ) (faces : List Detection) :
    (foundFaces ox oy qualityThreshold sizeThreshold det s0 faces).map (fun r => r.Face) =
      (faces.filter (fun f => decide (f.Q ≥ roundF32 qualityThreshold) &&
          decide (f.Scale ≥ goInt sizeThreshold))).map
        (fun f => some { CX := f.Col + ox, CY := f.Row + oy, Size := f.Scale }) ∧
    (foundFaces 0 0 qualityThreshold sizeThreshold det s0 faces).map (fun r => r.Face) =
      (faces.filter (fun f => decide (f.Q ≥ roundF32 qualityThreshold) &&
          decide (f.Scale ≥ goInt sizeThreshold))).map
        (fun f => some { CX := f.Col, CY := f.Row, Size := f.Scale }) := by
  constructor
  · have h := congrArg (List.map Prod.fst)
      (foundFaces_map ox oy qualityThreshold sizeThreshold det s0 faces)
    simp only [List.map_map] at h
    rw [show (fun r : FaceResult => r.Face) = Prod.fst ∘ (fun r => (r.Face, r.Quality)) from rfl,
      h]
    apply List.map_congr_left
    intro f _
    simp [NewLocationFromOffsetCenterSize, add_comm]
  · have h := congrArg (List.map Prod.fst)
      (foundFaces_map 0 0 qualityThreshold sizeThreshold det s0 faces)
    simp only [List.map_map] at h
    rw [show (fun r : FaceResult => r.Face) = Prod.fst ∘ (fun r => (r.Face, r.Quality)) from rfl,
      h]
    apply List.map_congr_left
    intro f _
    simp [NewLocationFromOffsetCenterSize]

/-- C6: for every input string and every behaviour of the float parser,
`parseBoundingBox` returns exactly four numbers; number `i` is the parsed value of
the `i`-th comma-separated field of the quote-trimmed string (the field trimmed of
white space) when that field exists and parses, and otherwise the default at that
position, 0, 0, 1, 1; fields after the fourth play no part. Hence
`getSubRectangleForImage` never panics on parser output. -/
theorem parseBoundingBox_positional_defaults :
    (∀ (F : Type) [OfNat F 0] [OfNat F 1] (ParseFloat : List Char → Option F)
        (bboxStr : List Char),
      (parseBoundingBox ParseFloat bboxStr).length = 4 ∧
      ∀ i : Fin 4, (parseBoundingBox ParseFloat bboxStr)[i.val]? =
        some ((((SplitComma (Trim bboxStr [Char.ofNat 39, Char.ofNat 34]))[i.val]?).bind
          (fun f => ParseFloat (TrimSpace f))).getD (if i.val < 2 then 0 else 1))) ∧
    (∀ (ParseFloat : List Char → Option ℚ) (bboxStr : List Char) (width height : ℤ),
      (getSubRectangleForImage width height (parseBoundingBox ParseFloat bboxStr)).isSome =
        true) := by
  constructor
  · intro F _ _ pf s
    exact ⟨parseBoundingBox_length pf s, fun i => parseBoundingBox_getElem? pf s i⟩
  · intro pf s W H
    have hlen := parseBoundingBox_length pf s
    match hb : parseBoundingBox pf s, hlen with
    | [b0, b1, b2, b3], _ => simp [getSubRectangleForImage]

/-- C7: for an image of width `W` and height `H` (positive, below `2^53`) and a box
of `float64` values in [0, 1] with `w = 0` or `h = 0`, the region has
width × height = 0, the working image has cols × rows = 0 and the grayscale sample
buffer has length zero. -/
theorem region_zero_area (W H : ℤ) (hW0 : 0 < W) (hW : W < 2 ^ 53)
    (hH0 : 0 < H) (hH : H < 2 ^ 53) (x y w h : ℚ)
    (hx : 0 ≤ x ∧ x ≤ 1) (hy : 0 ≤ y ∧ y ≤ 1) (hw : 0 ≤ w ∧ w ≤ 1) (hh : 0 ≤ h ∧ h ≤ 1)
    (hfx : IsFloat64 x) (hfy : IsFloat64 y) (hz : w = 0 ∨ h = 0) :
    ∃ r : Rectangle, getSubRectangleForImage W H [x, y, w, h] = some r ∧
      r.Dx * r.Dy = 0 ∧ (newRect r).Dx * (newRect r).Dy = 0 ∧
      grayBufferLen (newRect r) = 0 := by
  obtain ⟨ax0, axW, axb, -, axz⟩ := axis_bounds hW0 hW hx.1 hx.2 hw.1 hw.2 hfx
  obtain ⟨ay0, ayH, ayb, -, ayz⟩ := axis_bounds hH0 hH hy.1 hy.2 hh.1 hh.2 hfy
  refine ⟨_, getSubRectangleForImage_normalized W H hW0 hW hH0 hH x y w h hx.1 hx.2 hy.1 hy.2
    hw.1 hw.2 hh.1 hh.2 hfx hfy, ?_⟩
  set r : Rectangle :=
    { Min := { X := goInt (roundF64 (roundF64 W * x)), Y := goInt (roundF64 (roundF64 H * y)) }
      Max := { X := min W (goInt (roundF64 (roundF64 W * roundF64 (x + w))))
               Y := min H (goInt (roundF64 (roundF64 H * roundF64 (y + h)))) } } with hr
  have hdx : 0 ≤ r.Dx := by
    simp only [hr, Rectangle.Dx]
    have := le_min axW axb
    omega
  have hdy : 0 ≤ r.Dy := by
    simp only [hr, Rectangle.Dy]
    have := le_min ayH ayb
    omega
  have hzero : r.Dx * r.Dy = 0 := by
    rcases hz with h0 | h0
    · have e : r.Dx = 0 := by
        simp only [hr, Rectangle.Dx]
        rw [axz h0, min_eq_right axW]
        omega
      rw [e, zero_mul]
    · have e : r.Dy = 0 := by
        simp only [hr, Rectangle.Dy]
        rw [ayz h0, min_eq_right ayH]
        omega
      rw [e, mul_zero]
  have hnew : (newRect r).Dx = r.Dx ∧ (newRect r).Dy = r.Dy := by
    rw [newRect_of_nonneg r hdx hdy]
    simp [Rectangle.Dx, Rectangle.Dy]
  refine ⟨hzero, ?_, ?_⟩
  · rw [hnew.1, hnew.2, hzero]
  · unfold grayBufferLen
    rw [hnew.1, hnew.2, mul_comm, hzero]
    rfl

/-- C7 at a concrete input: a 640 × 480 image and the box (1/2, 1/4, 0, 1/2) of
zero width. -/
theorem region_zero_area_witness :
    ∃ r : Rectangle, getSubRectangleForImage 640 480 [1 / 2, 1 / 4, 0, 1 / 2] = some r ∧
      r.Dx * r.Dy = 0 ∧ (newRect r).Dx * (newRect r).Dy = 0 ∧
      grayBufferLen (newRect r) = 0 :=
  region_zero_area 640 480 (by norm_num) (by norm_num) (by norm_num) (by norm_num)
    (1 / 2) (1 / 4) 0 (1 / 2) (by norm_num) (by norm_num) (by norm_num) (by norm_num)
    (by decide!) (by decide!) (Or.inl rfl)

/-- C8, at the failing input: the size thresholds 246 and 1e30 (the `float64`
nearest to it, written out) are in order, yet a detection of scale 245 and score 2
is emitted under the higher one and not under the lower one: `1e30` does not fit an
`int`, its conversion yields the least `int`, and every scale passes. -/
theorem face_filter_not_monotone_at_overflow :
    (246 : ℚ) ≤ 1000000000000000019884624838656 ∧
    IsFloat64 1000000000000000019884624838656 ∧
    (foundFaces 0 0 1 1000000000000000019884624838656 noEyes ()
      [{ Row := 300, Col := 300, Scale := 245, Q := 2 }]).length = 1 ∧
    (foundFaces 0 0 1 246 noEyes ()
      [{ Row := 300, Col := 300, Scale := 245, Q := 2 }]).length = 0 := by
  decide!

/-- C9: for every accepted face, met after any prefix of detections, and every
pair of pupil locator results `L` (left) and `R` (right) for it, the loop appends
exactly one record to those of the prefix; its Face is present, its LeftEye is
present if and only if `L.Row > 0` and `L.Col > 0`, and its RightEye is present if
and only if `R.Row > 0` and `R.Col > 0`, each independently of the other. -/
theorem eye_sentinel_independent {σ : Type} (ox oy : ℤ) (qualityThreshold sizeThreshold : ℚ)
    (det : σ → Puploc → Puploc × σ) (s0 sp s1 s2 : σ) (pre : List Detection)
    (face : Detection) (L R : Puploc)
    (hq : face.Q ≥ roundF32 qualityThreshold) (hs : face.Scale ≥ goInt sizeThreshold)
    (hp : (pre.foldl (faceStep ox oy (roundF32 qualityThreshold) (goInt sizeThreshold) 63 det)
      (s0, [])).1 = sp)
    (hL : det sp (leftEyeSeed face 63) = (L, s1))
    (hR : det s1 (rightEyeSeed face 63) = (R, s2)) :
    ∃ fr : FaceResult,
      foundFaces ox oy qualityThreshold sizeThreshold det s0 (pre ++ [face]) =
        foundFaces ox oy qualityThreshold sizeThreshold det s0 pre ++ [fr] ∧
      fr.Face.isSome = true ∧
      (fr.LeftEye.isSome = true ↔ (L.Row > 0 ∧ L.Col > 0)) ∧
      (fr.RightEye.isSome = true ↔ (R.Row > 0 ∧ R.Col > 0)) := by
  obtain ⟨fr, hfr, hF, -, hl, hr⟩ :=
    faceStep_accept ox oy (roundF32 qualityThreshold) (goInt sizeThreshold) 63 det
      (pre.foldl (faceStep ox oy (roundF32 qualityThreshold) (goInt sizeThreshold) 63 det)
        (s0, [])) face hq hs
  rw [hp, hL] at hl hr
  simp only [] at hl hr
  rw [hR] at hr
  refine ⟨fr, ?_, by rw [hF]; rfl, ?_, ?_⟩
  · unfold foundFaces
    simp only [List.foldl_append, List.foldl_cons, List.foldl_nil]
    rw [hfr]
  · rw [hl]
    split_ifs with c <;> simp [c]
  · rw [hr]
    split_ifs with c <;> simp [c]

/-- C9 at a concrete input: a locator that echoes its seed.  The prefix is a face
whose two eyes are found; the next face (row 3, col 100, scale 50) has a left seed
of row 0 and a right seed of row 0, so neither eye of its record is present. -/
theorem eye_sentinel_independent_witness :
    ∃ fr : FaceResult,
      foundFaces 5 7 1 40 echoEyes ()
          ([{ Row := 100, Col := 100, Scale := 80, Q := 2 }] ++
            [{ Row := 3, Col := 100, Scale := 50, Q := 2 }]) =
        foundFaces 5 7 1 40 echoEyes () [{ Row := 100, Col := 100, Scale := 80, Q := 2 }] ++
          [fr] ∧
      fr.Face.isSome = true ∧
      (fr.LeftEye.isSome = true ↔
        ((leftEyeSeed { Row := 3, Col := 100, Scale := 50, Q := 2 } 63).Row > 0 ∧
         (leftEyeSeed { Row := 3, Col := 100, Scale := 50, Q := 2 } 63).Col > 0)) ∧
      (fr.RightEye.isSome = true ↔
        ((rightEyeSeed { Row := 3, Col := 100, Scale := 50, Q := 2 } 63).Row > 0 ∧
         (rightEyeSeed { Row := 3, Col := 100, Scale := 50, Q := 2 } 63).Col > 0)) :=
  eye_sentinel_independent 5 7 1 40 echoEyes () () () ()
    [{ Row := 100, Col := 100, Scale := 80, Q := 2 }]
    { Row := 3, Col := 100, Scale := 50, Q := 2 } _ _ (by decide!) (by decide!) rfl rfl rfl

/-- C10: the emitted sequence has exactly one entry per detection that passes the
filter, in the order of the clusterer output (it is the image of the filtered input
list, with no sorting, deduplication or reordering), and each entry carries the
location and the score of its detection as Face and Quality. -/
theorem result_order_preserved {σ : Type} (ox oy : ℤ) (qualityThreshold sizeThreshold : ℚ)
    (det : σ → Puploc → Puploc × σ) (s0 : σ) (faces : List Detection) :
    (foundFaces ox oy qualityThreshold sizeThreshold det s0 faces).length =
      (faces.filter (fun f => decide (f.Q ≥ roundF32 qualityThreshold) &&
          decide (f.Scale ≥ goInt sizeThreshold))).length ∧
    (foundFaces ox oy qualityThreshold sizeThreshold det s0 faces).map
        (fun r => (r.Face, r.Quality)) =
      (faces.filter (fun f => decide (f.Q ≥ roundF32 qualityThreshold) &&
          decide (f.Scale ≥ goInt sizeThreshold))).map
        (fun f => (some (NewLocationFromOffsetCenterSize ox oy f.Col f.Row f.Scale), f.Q)) ∧
    (foundFaces ox oy qualityThreshold sizeThreshold det s0 faces).map (fun r => r.Quality) =
      (faces.filter (fun f => decide (f.Q ≥ roundF32 qualityThreshold) &&
          decide (f.Scale ≥ goInt sizeThreshold))).map (fun f => f.Q) := by
  refine ⟨foundFaces_length ox oy qualityThreshold sizeThreshold det s0 faces,
    foundFaces_map ox oy qualityThreshold sizeThreshold det s0 faces, ?_⟩
  have h := congrArg (List.map Prod.snd)
    (foundFaces_map ox oy qualityThreshold sizeThreshold det s0 faces)
  simp only [List.map_map] at h
  exact h

end FaceDetect
